import Mathlib

/-!
Verification development for the `findit`/`quer` search engine
(`src/main.rs`).  The repository is a concurrent pattern-based byte
search tool; this file gives a shallow embedding of

* the pattern-translation layer (`convert_simplified_hex_regex` and the
  mode dispatch in `QuerApp::add_mode_selector`),
* the per-file scanner (`search_file`, `process_binary_match`,
  `process_text_match`), together with a semantic model of the external
  regex crate's `find_iter` restricted to literal byte patterns, and
* the controller's per-search resource lifecycle (`QuerApp::search`,
  `QuerApp::enqueue_files`, the Stop-button cancellation handler in
  `QuerApp::add_find_and_clear_btns`, and the channel drain in
  `QuerApp::add_listing_and_content_view`), as an explicit state machine.

Strings are embedded as `List Char`, bytes as `Nat` (values < 256),
machine integers (`i32`) as `Int`.
-/

namespace Quer

/-! ## Pattern compiler (`convert_simplified_hex_regex`, main.rs:1357-1371) -/

/-- The character class `[a-fA-F0-9]` used both by the invalid-character
check and by the pair-escaping regex in `convert_simplified_hex_regex`. -/
def isHexDigitChar (c : Char) : Bool :=
  decide (('0' ≤ c ∧ c ≤ '9') ∨ ('a' ≤ c ∧ c ≤ 'f') ∨ ('A' ≤ c ∧ c ≤ 'F'))

/-- Membership in the negated class `[^a-fA-F0-9.?\[\]\{\}\(\)\|,-]` of
`invalid_char_re` (main.rs:1359).  The allowed set is hex digits plus the
metacharacters `. ? [ ] { } ( ) | , -`; the brace characters are written
via their code points 123 and 125. -/
def isInvalidHexChar (c : Char) : Bool :=
  !(isHexDigitChar c ||
    decide (c = '.' ∨ c = '?' ∨ c = '[' ∨ c = ']' ∨ c.toNat = 123 ∨
            c.toNat = 125 ∨ c = '(' ∨ c = ')' ∨ c = '|' ∨ c = ',' ∨ c = '-'))

/-- The two error variants of `enum RegexErr` (main.rs:135-139). -/
inductive RegexErr where
  | InvalidChar
  | EmptyRegex
deriving DecidableEq

/-- The space removal `regex_str.replace(" ", "")` (main.rs:1358).  Note the
source removes only U+0020 space characters, not general whitespace. -/
def removeSpaces (s : List Char) : List Char := s.filter (fun c => c != ' ')

/-- The rewrite `hex_bytes_re.replace_all(&no_spaces, "\\x$1")`
(main.rs:1367-1368): each leftmost non-overlapping occurrence of
`([a-fA-F0-9]{2})` is replaced by a backslash-x escape of the pair. -/
def addXEscapes : List Char → List Char
  | a :: b :: rest =>
    if isHexDigitChar a && isHexDigitChar b then
      '\\' :: 'x' :: a :: b :: addXEscapes rest
    else
      a :: addXEscapes (b :: rest)
  | [a] => [a]
  | [] => []

/-- `convert_simplified_hex_regex` (main.rs:1357-1371): strip spaces, reject
on any character outside the allowed alphabet, reject the empty input
(note: the emptiness test inspects the original `regex_str`, not the
space-stripped text), otherwise escape all hex-digit pairs. -/
def convert_simplified_hex_regex (s : List Char) : Except RegexErr (List Char) :=
  let noSpaces := removeSpaces s
  if noSpaces.any isInvalidHexChar then .error .InvalidChar
  else if s.isEmpty then .error .EmptyRegex
  else .ok (addXEscapes noSpaces)

/-- The prefix `"(?-u)"` prepended in Hex mode (main.rs:414) so that the
compiled byte regex is not Unicode-aware. -/
def uPrefix : List Char := ['(', '?', '-', 'u', ')']

/-- Hex-mode half of the regex update in `QuerApp::add_mode_selector`
(main.rs:413-438): on success the translated text, prefixed with
`"(?-u)"`, is handed to `BytesRegex::new`; the value returned here is that
regex source text.  Translation errors are surfaced before any regex
construction is attempted. -/
def hex_mode_regex_request (s : List Char) : Except RegexErr (List Char) :=
  match convert_simplified_hex_regex s with
  | .ok r => .ok (uPrefix ++ r)
  | .error e => .error e

/-- Text-mode half of `QuerApp::add_mode_selector` (main.rs:440-455): the
empty string is rejected up front; otherwise the raw text itself is handed
to `BytesRegex::new`. -/
def text_mode_regex_request (s : List Char) : Except RegexErr (List Char) :=
  if s.length = 0 then .error .EmptyRegex else .ok s

/-- Numeric value of one hex digit character. -/
def hexVal (c : Char) : Nat :=
  if '0' ≤ c ∧ c ≤ '9' then c.toNat - 48
  else if 'a' ≤ c ∧ c ≤ 'f' then c.toNat - 87
  else if 'A' ≤ c ∧ c ≤ 'F' then c.toNat - 55
  else 0

/-- The flat character sequence of a list of two-digit hex pairs. -/
def pairsFlat : List (Char × Char) → List Char
  | [] => []
  | p :: rest => p.1 :: p.2 :: pairsFlat rest

/-- The fully escaped translation of a list of hex pairs: each pair
`(a, b)` becomes the four characters backslash, `x`, `a`, `b`. -/
def xEscapedForm : List (Char × Char) → List Char
  | [] => []
  | p :: rest => '\\' :: 'x' :: p.1 :: p.2 :: xEscapedForm rest

/-- Denotation of a fully escaped hex-pair pattern under `(?-u)`: the
literal byte sequence it matches.  Pair `(a, b)` denotes byte
`16 * a + b`. -/
def hexEscapedBytes (pairs : List (Char × Char)) : List Nat :=
  pairs.map (fun p => 16 * hexVal p.1 + hexVal p.2)

/-! ## Literal matcher: model of `regex::bytes::Regex::find_iter`

The claims exercise the regex engine only on literal byte patterns (the
translation of pure hex-pair input) and on the empty pattern.  For those,
`find_iter`'s documented semantics is: leftmost-first non-overlapping
matches, advancing past each match (and by one position after an empty
match, so the empty pattern matches at every offset). -/

/-- Offsets of the leftmost non-overlapping occurrences of the literal
`pat` in `buf`, in increasing order.  This is the model of
`Regex::find_iter` for a literal pattern. -/
def findLit (pat : List Nat) : List Nat → List Nat
  | [] => if pat.isEmpty then [0] else []
  | b :: rest =>
    if pat.isPrefixOf (b :: rest) then
      0 :: (findLit pat (rest.drop (pat.length.max 1 - 1))).map
        (fun j => j + pat.length.max 1)
    else
      (findLit pat rest).map (fun j => j + 1)
termination_by l => l.length
decreasing_by
  · simp only [List.length_drop, List.length_cons]
    omega
  · simp only [List.length_cons]
    omega

/-- All offsets at which the literal `pat` occurs in `buf` (overlapping
occurrences included), in increasing order.  The lemma `mem_occList_iff`
below states the intended meaning: `i` is listed exactly when `pat` is a
prefix of `buf` with its first `i` bytes dropped. -/
def occList (pat : List Nat) : List Nat → List Nat
  | [] => if pat.isEmpty then [0] else []
  | b :: rest =>
    (if pat.isPrefixOf (b :: rest) then [0] else []) ++
      (occList pat rest).map (fun j => j + 1)

/-! ## File scanner (`search_file`, main.rs:1253-1339) -/

/-- `struct Finding` (main.rs:152-157). -/
structure Finding where
  filepath : List Char
  offset : Nat
  match_size : Nat
  match_content : List Char
deriving DecidableEq

/-- One `regex::bytes::Match`: its starting offset and the matched bytes. -/
structure ByteMatch where
  start : Nat
  bytes : List Nat
deriving DecidableEq

/-- `enum RegexEnum` (main.rs:117-121).  The source variants carry compiled
`BytesRegex` values; the model carries the literal byte sequence the
compiled pattern denotes, which is the only regex shape the claims
exercise (fully escaped hex-pair translations). -/
inductive RegexEnum where
  | Hex (pat : List Nat)
  | Text (pat : List Nat)
deriving DecidableEq

/-- `struct SearchOptions` (main.rs:187-191): `alignment: i32`,
`regex_result: Result<RegexEnum, String>`, `max_hits: u32`. -/
structure SearchOptions where
  alignment : Int
  regex_result : Except (List Char) RegexEnum
  max_hits : Nat

/-- Lowercase hex digit character, for the `format!("{:02x}", b)` rendering
in `process_binary_match` (main.rs:1315). -/
def hexDigitLowerChar (n : Nat) : Char :=
  if n < 10 then Char.ofNat (48 + n) else Char.ofNat (87 + n)

/-- Two-digit lowercase hex rendering of one byte. -/
def byteHexLower (b : Nat) : List Char :=
  [hexDigitLowerChar (b / 16), hexDigitLowerChar (b % 16)]

/-- The `.join(" ")` of the per-byte hex renderings (main.rs:1312-1317). -/
def hexPairsRender : List Nat → List Char
  | [] => []
  | [b] => byteHexLower b
  | b :: rest => byteHexLower b ++ ' ' :: hexPairsRender rest

/-- The replacement character U+FFFD used by lossy UTF-8 decoding. -/
def replacementChar : Char := Char.ofNat 0xFFFD

/-- Byte-level model of `String::from_utf8_lossy` (main.rs:1334).  Decodes
well-formed UTF-8 sequences and substitutes U+FFFD for malformed bytes.
The exact grouping of replacement characters for malformed input is not
relied on by any claim. -/
def utf8LossyDecode : List Nat → List Char
  | [] => []
  | b1 :: rest =>
    if b1 < 0x80 then Char.ofNat b1 :: utf8LossyDecode rest
    else if 0xC2 ≤ b1 ∧ b1 ≤ 0xDF then
      match h : rest with
      | b2 :: rest2 =>
        if 0x80 ≤ b2 ∧ b2 ≤ 0xBF then
          Char.ofNat ((b1 - 0xC0) * 64 + (b2 - 0x80)) :: utf8LossyDecode rest2
        else replacementChar :: utf8LossyDecode rest
      | [] => [replacementChar]
    else if 0xE0 ≤ b1 ∧ b1 ≤ 0xEF then
      match h : rest with
      | b2 :: b3 :: rest3 =>
        let v := (b1 - 0xE0) * 4096 + (b2 - 0x80) * 64 + (b3 - 0x80)
        if (0x80 ≤ b2 ∧ b2 ≤ 0xBF) ∧ (0x80 ≤ b3 ∧ b3 ≤ 0xBF) ∧
            0x800 ≤ v ∧ (v < 0xD800 ∨ 0xDFFF < v) then
          Char.ofNat v :: utf8LossyDecode rest3
        else replacementChar :: utf8LossyDecode rest
      | _ => replacementChar :: utf8LossyDecode rest
    else if 0xF0 ≤ b1 ∧ b1 ≤ 0xF4 then
      match h : rest with
      | b2 :: b3 :: b4 :: rest4 =>
        let v := (b1 - 0xF0) * 262144 + (b2 - 0x80) * 4096 +
          (b3 - 0x80) * 64 + (b4 - 0x80)
        if (0x80 ≤ b2 ∧ b2 ≤ 0xBF) ∧ (0x80 ≤ b3 ∧ b3 ≤ 0xBF) ∧
            (0x80 ≤ b4 ∧ b4 ≤ 0xBF) ∧ 0x10000 ≤ v ∧ v ≤ 0x10FFFF then
          Char.ofNat v :: utf8LossyDecode rest4
        else replacementChar :: utf8LossyDecode rest
      | _ => replacementChar :: utf8LossyDecode rest
    else replacementChar :: utf8LossyDecode rest
termination_by l => l.length
decreasing_by all_goals (simp_wf <;> simp_all <;> omega)

/-- The `Finding` constructed and sent by `process_binary_match`
(main.rs:1308-1317). -/
def mkBinaryFinding (path : List Char) (m : ByteMatch) : Finding :=
  { filepath := path, offset := m.start, match_size := m.bytes.length,
    match_content := hexPairsRender m.bytes }

/-- `process_binary_match` (main.rs:1299-1322): a match is discarded when
`alignment != 0` and its starting offset is not a multiple of
`alignment as usize`; otherwise a `Finding` with space-separated lowercase
hex content is sent on the result channel (`none` models the early
return, `some` the send).  The `as usize` cast is faithful for the
non-negative alignments the UI admits (main.rs:513-515 clamps negatives
to zero before a search can snapshot them). -/
def process_binary_match (opts : SearchOptions) (path : List Char)
    (m : ByteMatch) : Option Finding :=
  if opts.alignment ≠ 0 ∧ m.start % opts.alignment.toNat ≠ 0 then none
  else some (mkBinaryFinding path m)

/-- `process_text_match` (main.rs:1324-1339): every match is sent, with
lossily decoded content and no alignment filter. -/
def process_text_match (_opts : SearchOptions) (path : List Char)
    (m : ByteMatch) : Option Finding :=
  some { filepath := path, offset := m.start, match_size := m.bytes.length,
         match_content := utf8LossyDecode m.bytes }

/-- The `for m in re.find_iter(..)` loop body shared by both branches of
`search_file` (main.rs:1272-1288): process the match, increment
`curr_hits`, and return as soon as `curr_hits >= max_hits`.  The returned
list collects the findings actually sent. -/
def find_iter_loop (process : ByteMatch → Option Finding) (max_hits : Nat) :
    List ByteMatch → Nat → List Finding
  | [], _ => []
  | m :: rest, curr_hits =>
    let out := (process m).toList
    if max_hits ≤ curr_hits + 1 then out
    else out ++ find_iter_loop process max_hits rest (curr_hits + 1)

/-- The match sequence `find_iter` yields on `buf` for a literal pattern
`pat`: offsets from `findLit`, each carrying the literal bytes. -/
def litMatches (pat buf : List Nat) : List ByteMatch :=
  (findLit pat buf).map (fun i => { start := i, bytes := pat })

/-- `search_file` (main.rs:1253-1297) for one file.  `contents` is `none`
when the open or the memory mapping fails (the scan then silently yields
no findings); otherwise it is the mapped byte content.  The two regex
variants drive the shared match loop with their respective processors,
starting from `curr_hits = 0`; a regex in the error state yields
nothing. -/
def search_file (opts : SearchOptions) (path : List Char)
    (contents : Option (List Nat)) : List Finding :=
  match contents with
  | none => []
  | some buf =>
    match opts.regex_result with
    | .ok (.Hex pat) =>
      find_iter_loop (process_binary_match opts path) opts.max_hits
        (litMatches pat buf) 0
    | .ok (.Text pat) =>
      find_iter_loop (process_text_match opts path) opts.max_hits
        (litMatches pat buf) 0
    | .error _ => []

/-! ## Controller state machine (`QuerApp::search` and friends)

The concurrent controller is embedded as an explicit state machine.
Channels (`mpsc`), the shared candidate queue (`ConcurrentQueue`), and the
counter mutex are modelled by identifiers allocated from a monotone
counter `nextId`, so that freshness and sharing of the per-search
resources can be stated.  In-flight channel messages are held in pending
lists tagged with the destination channel's identifier; a message is
observable only while its channel identifier is held in the corresponding
receiver list, mirroring `mpsc` receivers being dropped.

A worker thread of one search terminates only once its work-stealing
queue is empty (main.rs:1204-1213), so "workers of a search have not all
terminated" corresponds to that search still having unexecuted tasks. -/

/-- One closure pushed onto the work queue (main.rs:1190-1201): it captures
the shared candidate-file queue, the result sender and the progress
sender of the search that created it. -/
structure WorkTask where
  queueId : Nat
  resultChan : Nat
  progressChan : Nat
deriving DecidableEq

/-- The controller-relevant fields of `struct QuerApp` (main.rs:159-185).
`fileQueue` holds the queued candidate files (abstracted to numeric
identifiers); `currentFiles` is the integer behind `current_files_mtx`;
`tasks` are the submitted but not yet executed work-queue closures, in
submission order; `pendingFindings` and `pendingProgress` are in-flight
channel messages tagged with their channel identifier; `findings` is the
drained result list. -/
structure AppState where
  nextId : Nat
  fileQueueId : Nat
  fileQueue : List Nat
  currentFilesId : Nat
  currentFiles : Int
  maxFiles : Int
  rxHandles : List Nat
  filecountHandles : List Nat
  tasks : List WorkTask
  pendingFindings : List (Nat × Nat)
  pendingProgress : List (Nat × Int)
  findings : List Nat
  clearResultsBeforeSearch : Bool
deriving DecidableEq

/-- `QuerApp::new` (main.rs:232-264): one candidate-file queue and one
counter mutex are allocated at construction; all lists start empty and
`clear_results_before_search` defaults to `true`. -/
def initState : AppState :=
  { nextId := 2, fileQueueId := 0, fileQueue := [], currentFilesId := 1,
    currentFiles := 0, maxFiles := 0, rxHandles := [], filecountHandles := [],
    tasks := [], pendingFindings := [], pendingProgress := [], findings := [],
    clearResultsBeforeSearch := true }

/-- `QuerApp::enqueue_files` (main.rs:1065-1089): every enumerated regular
file is pushed onto the existing shared `file_queue`. -/
def enqueue_files (q files : List Nat) : List Nat := q ++ files

/-- `QuerApp::search` (main.rs:1128-1220), with `files` the candidate files
the tree walk enumerates.  In source order: optionally clear `findings`
and `rx_handles` (main.rs:1129-1132); reset `max_files` and replace
`current_files_mtx` with a freshly allocated counter (main.rs:1142-1143);
push the candidates onto the *same* shared `file_queue`
(main.rs:1159, `enqueue_files`); set `max_files` (main.rs:1161); return
early when no candidate was found (main.rs:1167-1169); otherwise create a
fresh result channel and a fresh progress channel, append their receivers
(main.rs:1171-1179), and submit one task per candidate, each capturing
the shared queue and the two fresh senders (main.rs:1185-1202). -/
def searchStep (s0 : AppState) (files : List Nat) : AppState :=
  let s1 := if s0.clearResultsBeforeSearch then
    { s0 with findings := [], rxHandles := [] } else s0
  let s2 := { s1 with maxFiles := 0, currentFilesId := s1.nextId,
                      currentFiles := 0, nextId := s1.nextId + 1,
                      fileQueue := enqueue_files s1.fileQueue files }
  let s3 := { s2 with maxFiles := (files.length : Int) }
  if files.length < 1 then s3
  else
    { s3 with
      nextId := s3.nextId + 2,
      rxHandles := s3.rxHandles ++ [s3.nextId],
      filecountHandles := s3.filecountHandles ++ [s3.nextId + 1],
      tasks := s3.tasks ++ List.replicate files.length
        { queueId := s3.fileQueueId, resultChan := s3.nextId,
          progressChan := s3.nextId + 1 } }

/-- Execution of the oldest pending task by a worker (main.rs:1190-1201):
pop one entry from the shared candidate queue; on success run
`search_file`, whose emissions are abstracted by `scan` (they depend on
the file's bytes and the snapshotted pattern) and sent on the task's
result channel; in either case send exactly one `1` on the task's
progress channel. -/
def runTaskStep (scan : Nat → List Nat) (s : AppState) : AppState :=
  match s.tasks with
  | [] => s
  | t :: rest =>
    match s.fileQueue with
    | [] =>
      { s with tasks := rest,
               pendingProgress := s.pendingProgress ++ [(t.progressChan, 1)] }
    | f :: q =>
      { s with tasks := rest, fileQueue := q,
               pendingFindings := s.pendingFindings ++
                 (scan f).map (fun x => (t.resultChan, x)),
               pendingProgress := s.pendingProgress ++ [(t.progressChan, 1)] }

/-- The in-flight progress messages currently observable through the held
progress receivers. -/
def msgsOnHandles (s : AppState) : List (Nat × Int) :=
  s.pendingProgress.filter (fun p => s.filecountHandles.contains p.1)

/-- The sum of the observable in-flight progress values. -/
def pendingOnHandles (s : AppState) : Int :=
  ((msgsOnHandles s).map Prod.snd).sum

/-- The channel drain at the top of `QuerApp::add_listing_and_content_view`
(main.rs:752-764), run every UI frame: `try_iter` every held result
receiver into `findings`, then `try_iter` every held filecount receiver,
adding each received value to the integer behind `current_files_mtx`.
Messages addressed to receivers no longer held stay unobserved. -/
def drainStep (s : AppState) : AppState :=
  { s with
    findings := s.findings ++
      (s.pendingFindings.filter (fun p => s.rxHandles.contains p.1)).map Prod.snd,
    pendingFindings := s.pendingFindings.filter (fun p => !s.rxHandles.contains p.1),
    currentFiles := s.currentFiles + pendingOnHandles s,
    pendingProgress := s.pendingProgress.filter
      (fun p => !s.filecountHandles.contains p.1) }

/-- The Stop-button handler in `QuerApp::add_find_and_clear_btns`
(main.rs:925-936): pop the candidate queue until empty, clear
`rx_handles` (dropping the result receivers), and reset `max_files` to
zero.  `filecount_handles` is left untouched. -/
def cancelStep (s : AppState) : AppState :=
  { s with fileQueue := [], rxHandles := [], maxFiles := 0 }

/-- The externally triggered controller events. -/
inductive Op where
  | searchOp (files : List Nat)
  | runTask
  | drain
  | cancel
deriving DecidableEq

/-- One controller transition. -/
def step (scan : Nat → List Nat) (s : AppState) : Op → AppState
  | .searchOp files => searchStep s files
  | .runTask => runTaskStep scan s
  | .drain => drainStep s
  | .cancel => cancelStep s

/-- Execution of a sequence of controller events. -/
def run (scan : Nat → List Nat) (s : AppState) : List Op → AppState
  | [] => s
  | op :: ops => run scan (step scan s op) ops

/-- Every resource identifier a state refers to: the shared queue, the
counter, held receivers, identifiers captured by pending tasks, and
destinations of in-flight messages. -/
def usedIds (s : AppState) : List Nat :=
  s.fileQueueId :: s.currentFilesId ::
    (s.rxHandles ++ s.filecountHandles ++ s.tasks.map (fun t => t.resultChan) ++
     s.tasks.map (fun t => t.progressChan) ++ s.tasks.map (fun t => t.queueId) ++
     s.pendingFindings.map Prod.fst ++ s.pendingProgress.map Prod.fst)

/-- Identifier discipline: every identifier in use is below the allocation
counter, so freshly allocated identifiers are disjoint from all of them. -/
def wfIds (s : AppState) : Prop :=
  ∀ i ∈ usedIds s, i < s.nextId

instance (s : AppState) : Decidable (wfIds s) :=
  inferInstanceAs (Decidable (∀ i ∈ usedIds s, i < s.nextId))

/-! ## Lemmas about the literal matcher -/

theorem isPrefixOf_iff_exists_append :
    ∀ (p l : List Nat), p.isPrefixOf l = true ↔ ∃ t, l = p ++ t := by
  intro p
  induction p with
  | nil => intro l; simp [List.isPrefixOf]
  | cons a p ih =>
    intro l
    cases l with
    | nil => simp [List.isPrefixOf]
    | cons b l' =>
      simp only [List.isPrefixOf, Bool.and_eq_true, beq_iff_eq, ih,
        List.cons_append, List.cons.injEq]
      constructor
      · rintro ⟨rfl, t, rfl⟩; exact ⟨t, rfl, rfl⟩
      · rintro ⟨t, rfl, rfl⟩; exact ⟨rfl, t, rfl⟩

theorem isPrefixOf_nil_of_ne (p : List Nat) (hp : p ≠ []) :
    p.isPrefixOf ([] : List Nat) = false := by
  cases p with
  | nil => exact absurd rfl hp
  | cons a p => rfl

theorem prefix_drop_le_length (pat buf : List Nat) (hp : pat ≠ []) (i : Nat)
    (h : pat.isPrefixOf (buf.drop i) = true) : i ≤ buf.length := by
  by_contra hlt
  have hnil : buf.drop i = [] := by
    apply List.drop_eq_nil_of_le
    omega
  rw [hnil, isPrefixOf_nil_of_ne pat hp] at h
  exact Bool.false_ne_true h

theorem mem_occList_iff (pat : List Nat) (hp : pat ≠ []) :
    ∀ (buf : List Nat) (i : Nat),
      i ∈ occList pat buf ↔ pat.isPrefixOf (buf.drop i) = true := by
  have hempty : pat.isEmpty = false := by
    cases pat with
    | nil => exact absurd rfl hp
    | cons a t => rfl
  intro buf
  induction buf with
  | nil =>
    intro i
    rw [occList, if_neg (by simp [hempty])]
    simp [isPrefixOf_nil_of_ne pat hp]
  | cons b rest ih =>
    intro i
    rw [occList, List.mem_append]
    cases i with
    | zero =>
      simp only [List.drop_zero]
      constructor
      · rintro (h0 | hmap)
        · by_cases hpre : pat.isPrefixOf (b :: rest) = true
          · exact hpre
          · rw [if_neg hpre] at h0
            simp at h0
        · exfalso
          rcases List.mem_map.mp hmap with ⟨j, _, hj⟩
          omega
      · intro hpre
        left
        rw [if_pos hpre]
        simp
    | succ j =>
      rw [List.drop_succ_cons]
      constructor
      · rintro (h0 | hmap)
        · exfalso
          by_cases hpre : pat.isPrefixOf (b :: rest) = true
          · rw [if_pos hpre] at h0
            simp at h0
          · rw [if_neg hpre] at h0
            simp at h0
        · rcases List.mem_map.mp hmap with ⟨j', hj', heq⟩
          have hjj : j' = j := by omega
          subst hjj
          exact (ih j').mp hj'
      · intro hpre
        right
        exact List.mem_map.mpr ⟨j, (ih j).mpr hpre, rfl⟩

/-- Soundness of the scan: every offset `findLit` reports is an occurrence
of the pattern. -/
theorem findLit_sound_aux (pat : List Nat) (hp : pat ≠ []) :
    ∀ (n : Nat) (buf : List Nat), buf.length ≤ n →
      ∀ j ∈ findLit pat buf, pat.isPrefixOf (buf.drop j) = true := by
  have hempty : ¬ (pat.isEmpty = true) := by
    cases pat with
    | nil => exact absurd rfl hp
    | cons a t => simp
  intro n
  induction n with
  | zero =>
    intro buf hlen j hj
    have hbuf : buf = [] := List.length_eq_zero.mp (Nat.le_zero.mp hlen)
    subst hbuf
    rw [findLit, if_neg hempty] at hj
    simp at hj
  | succ n ih =>
    intro buf hlen j hj
    cases buf with
    | nil =>
      rw [findLit, if_neg hempty] at hj
      simp at hj
    | cons b rest =>
      rw [findLit] at hj
      by_cases hpre : pat.isPrefixOf (b :: rest) = true
      · rw [if_pos hpre] at hj
        rcases List.mem_cons.mp hj with h0 | hmap
        · subst h0
          simpa using hpre
        · rcases List.mem_map.mp hmap with ⟨j', hj', rfl⟩
          have hdlen : (rest.drop (pat.length.max 1 - 1)).length ≤ n := by
            simp only [List.length_drop]
            simp only [List.length_cons] at hlen
            omega
          have hrec := ih (rest.drop (pat.length.max 1 - 1)) hdlen j' hj'
          rw [List.drop_drop] at hrec
          have hm : 1 ≤ pat.length.max 1 := Nat.le_max_right pat.length 1
          have harith : j' + pat.length.max 1 =
              (pat.length.max 1 - 1 + j') + 1 := by omega
          rw [harith, List.drop_succ_cons]
          exact hrec
      · rw [if_neg hpre] at hj
        rcases List.mem_map.mp hj with ⟨j', hj', rfl⟩
        have hrec := ih rest (by simp only [List.length_cons] at hlen; omega) j' hj'
        rw [List.drop_succ_cons]
        exact hrec

theorem findLit_sound (pat buf : List Nat) (hp : pat ≠ []) :
    ∀ j ∈ findLit pat buf, pat.isPrefixOf (buf.drop j) = true :=
  findLit_sound_aux pat hp buf.length buf le_rfl

/-- If the pattern occurs nowhere, the scan reports nothing. -/
theorem findLit_eq_nil_of_occList_nil (pat buf : List Nat) (hp : pat ≠ [])
    (h : occList pat buf = []) : findLit pat buf = [] := by
  rw [List.eq_nil_iff_forall_not_mem]
  intro j hj
  have hpre := findLit_sound pat buf hp j hj
  have hmem : j ∈ occList pat buf := (mem_occList_iff pat hp buf j).mpr hpre
  rw [h] at hmem
  simp at hmem

/-- A mapped shift yields a singleton exactly when the source is the
matching singleton. -/
theorem map_add_eq_singleton (l : List Nat) (m i : Nat)
    (h : l.map (fun j => j + m) = [i]) : m ≤ i ∧ l = [i - m] := by
  cases l with
  | nil => simp at h
  | cons a t =>
    cases t with
    | nil =>
      simp only [List.map_cons, List.map_nil, List.cons.injEq, and_true] at h
      refine ⟨by omega, ?_⟩
      have ha : a = i - m := by omega
      rw [ha]
    | cons a' t' => simp at h

/-- Completeness at multiplicity one: when the pattern occurs at exactly
one offset, the scan reports exactly that offset. -/
theorem findLit_of_occList_singleton_aux (pat : List Nat) (hp : pat ≠ []) :
    ∀ (n : Nat) (buf : List Nat), buf.length ≤ n →
      ∀ i, occList pat buf = [i] → findLit pat buf = [i] := by
  have hempty : ¬ (pat.isEmpty = true) := by
    cases pat with
    | nil => exact absurd rfl hp
    | cons a t => simp
  intro n
  induction n with
  | zero =>
    intro buf hlen i hocc
    have hbuf : buf = [] := List.length_eq_zero.mp (Nat.le_zero.mp hlen)
    subst hbuf
    rw [occList, if_neg hempty] at hocc
    simp at hocc
  | succ n ih =>
    intro buf hlen i hocc
    cases buf with
    | nil =>
      rw [occList, if_neg hempty] at hocc
      simp at hocc
    | cons b rest =>
      rw [occList] at hocc
      rw [findLit]
      by_cases hpre : pat.isPrefixOf (b :: rest) = true
      · rw [if_pos hpre] at hocc
        rw [if_pos hpre]
        simp only [List.cons_append, List.nil_append, List.cons.injEq] at hocc
        obtain ⟨rfl, hmapnil⟩ := hocc
        have hoccrest : occList pat rest = [] := by
          simpa using hmapnil
        have hoccdrop : occList pat (rest.drop (pat.length.max 1 - 1)) = [] := by
          rw [List.eq_nil_iff_forall_not_mem]
          intro j hj
          have hpre' := (mem_occList_iff pat hp _ j).mp hj
          rw [List.drop_drop] at hpre'
          have hmem : (pat.length.max 1 - 1 + j) ∈ occList pat rest :=
            (mem_occList_iff pat hp rest _).mpr hpre'
          rw [hoccrest] at hmem
          simp at hmem
        rw [findLit_eq_nil_of_occList_nil pat _ hp hoccdrop]
        simp
      · rw [if_neg hpre] at hocc
        rw [if_neg hpre]
        simp only [List.nil_append] at hocc
        obtain ⟨hile, hoccrest⟩ := map_add_eq_singleton _ _ _ hocc
        have hfind := ih rest (by simp only [List.length_cons] at hlen; omega)
          (i - 1) hoccrest
        rw [hfind]
        simp only [List.map_cons, List.map_nil, List.cons.injEq, and_true]
        omega

theorem findLit_of_occList_singleton (pat buf : List Nat) (hp : pat ≠ [])
    (i : Nat) (h : occList pat buf = [i]) : findLit pat buf = [i] :=
  findLit_of_occList_singleton_aux pat hp buf.length buf le_rfl i h

/-- The reported offsets are strictly increasing. -/
theorem findLit_sorted_aux (pat : List Nat) :
    ∀ (n : Nat) (buf : List Nat), buf.length ≤ n →
      List.Pairwise (· < ·) (findLit pat buf) := by
  intro n
  induction n with
  | zero =>
    intro buf hlen
    have hbuf : buf = [] := List.length_eq_zero.mp (Nat.le_zero.mp hlen)
    subst hbuf
    rw [findLit]
    by_cases h : pat.isEmpty <;> simp [h]
  | succ n ih =>
    intro buf hlen
    cases buf with
    | nil =>
      rw [findLit]
      by_cases h : pat.isEmpty <;> simp [h]
    | cons b rest =>
      rw [findLit]
      have hm : 1 ≤ pat.length.max 1 := Nat.le_max_right pat.length 1
      by_cases hpre : pat.isPrefixOf (b :: rest) = true
      · rw [if_pos hpre]
        have hrec : List.Pairwise (· < ·)
            (findLit pat (rest.drop (pat.length.max 1 - 1))) := by
          apply ih
          simp only [List.length_drop]
          simp only [List.length_cons] at hlen
          omega
        constructor
        · intro j hj
          rcases List.mem_map.mp hj with ⟨j', _, rfl⟩
          omega
        · rw [List.pairwise_map]
          exact hrec.imp (fun h => by omega)
      · rw [if_neg hpre]
        have hrec : List.Pairwise (· < ·) (findLit pat rest) :=
          ih rest (by simp only [List.length_cons] at hlen; omega)
        rw [List.pairwise_map]
        exact hrec.imp (fun h => by omega)

theorem findLit_sorted (pat buf : List Nat) :
    List.Pairwise (· < ·) (findLit pat buf) :=
  findLit_sorted_aux pat buf.length buf le_rfl

/-- Unfolding `List.range` at a successor from the front. -/
theorem range_succ_shift (n : Nat) :
    List.range (n + 1) = 0 :: (List.range n).map (fun j => j + 1) := by
  rw [List.range_succ_eq_map]

/-- The empty pattern matches at every offset, `0` through `buf.length`. -/
theorem findLit_nil_pat_aux :
    ∀ (n : Nat) (buf : List Nat), buf.length ≤ n →
      findLit ([] : List Nat) buf = List.range (buf.length + 1) := by
  intro n
  induction n with
  | zero =>
    intro buf hlen
    have hbuf : buf = [] := List.length_eq_zero.mp (Nat.le_zero.mp hlen)
    subst hbuf
    rw [findLit]
    simp [List.range_succ]
  | succ n ih =>
    intro buf hlen
    cases buf with
    | nil =>
      rw [findLit]
      simp [List.range_succ]
    | cons b rest =>
      rw [findLit]
      have hpre : ([] : List Nat).isPrefixOf (b :: rest) = true := rfl
      rw [if_pos hpre]
      have hmax : ([] : List Nat).length.max 1 = 1 := rfl
      rw [hmax]
      simp only [Nat.sub_self, List.drop_zero]
      rw [ih rest (by simp only [List.length_cons] at hlen; omega)]
      simp only [List.length_cons]
      exact (range_succ_shift (rest.length + 1)).symm

theorem findLit_nil_pat (buf : List Nat) :
    findLit ([] : List Nat) buf = List.range (buf.length + 1) :=
  findLit_nil_pat_aux buf.length buf le_rfl

/-! ## Lemmas about the pattern compiler -/

theorem isInvalid_false_of_hex (c : Char) (h : isHexDigitChar c = true) :
    isInvalidHexChar c = false := by
  unfold isInvalidHexChar
  rw [h]
  rfl

theorem pairsFlat_ne_nil (pairs : List (Char × Char)) (h : pairs ≠ []) :
    pairsFlat pairs ≠ [] := by
  cases pairs with
  | nil => exact absurd rfl h
  | cons p rest => simp [pairsFlat]

theorem pairsFlat_no_invalid (pairs : List (Char × Char))
    (h : ∀ p ∈ pairs, isHexDigitChar p.1 = true ∧ isHexDigitChar p.2 = true) :
    (pairsFlat pairs).any isInvalidHexChar = false := by
  induction pairs with
  | nil => rfl
  | cons p rest ih =>
    have hp := h p (List.mem_cons_self p rest)
    rw [pairsFlat]
    simp only [List.any_cons]
    rw [isInvalid_false_of_hex _ hp.1, isInvalid_false_of_hex _ hp.2,
      ih (fun q hq => h q (List.mem_cons_of_mem p hq))]
    rfl

theorem addXEscapes_pairsFlat (pairs : List (Char × Char))
    (h : ∀ p ∈ pairs, isHexDigitChar p.1 = true ∧ isHexDigitChar p.2 = true) :
    addXEscapes (pairsFlat pairs) = xEscapedForm pairs := by
  induction pairs with
  | nil => rfl
  | cons p rest ih =>
    have hp := h p (List.mem_cons_self p rest)
    have hcond : (isHexDigitChar p.1 && isHexDigitChar p.2) = true := by
      rw [hp.1, hp.2]
      rfl
    rw [pairsFlat, addXEscapes, if_pos hcond, xEscapedForm]
    simp only [List.cons.injEq, true_and]
    exact ih (fun q hq => h q (List.mem_cons_of_mem p hq))

/-- `convert_simplified_hex_regex` succeeds on any spacing of a pure
hex-pair input and produces exactly the pair-escaped translation. -/
theorem convert_ok_of_pairs (pairs : List (Char × Char)) (input : List Char)
    (hne : pairs ≠ [])
    (hhex : ∀ p ∈ pairs, isHexDigitChar p.1 = true ∧ isHexDigitChar p.2 = true)
    (hinput : removeSpaces input = pairsFlat pairs) :
    convert_simplified_hex_regex input = .ok (xEscapedForm pairs) := by
  have hinne : input ≠ [] := by
    intro heq
    subst heq
    exact pairsFlat_ne_nil pairs hne hinput.symm
  unfold convert_simplified_hex_regex
  simp only [hinput, pairsFlat_no_invalid pairs hhex, Bool.false_eq_true,
    if_false]
  rw [if_neg (by simpa [List.isEmpty_iff] using hinne)]
  rw [addXEscapes_pairsFlat pairs hhex]

theorem hexEscapedBytes_ne_nil (pairs : List (Char × Char)) (h : pairs ≠ []) :
    hexEscapedBytes pairs ≠ [] := by
  unfold hexEscapedBytes
  simpa using h

theorem hexEscapedBytes_length (pairs : List (Char × Char)) :
    (hexEscapedBytes pairs).length = pairs.length := by
  unfold hexEscapedBytes
  simp

/-! ## Lemmas about the scan loop -/

/-- Closed form of the match loop: starting below the cap at `curr_hits`,
the loop processes exactly the next `max_hits - curr_hits` matches. -/
theorem find_iter_loop_eq (process : ByteMatch → Option Finding) (mh : Nat) :
    ∀ (ms : List ByteMatch) (c : Nat), c < mh →
      find_iter_loop process mh ms c = (ms.take (mh - c)).filterMap process := by
  intro ms
  induction ms with
  | nil => intro c _; simp [find_iter_loop]
  | cons m rest ih =>
    intro c hc
    rw [find_iter_loop]
    by_cases hstop : mh ≤ c + 1
    · rw [if_pos hstop]
      have h1 : mh - c = 1 := by omega
      rw [h1]
      simp only [List.take_succ_cons, List.take_zero, List.filterMap_cons]
      cases process m <;> simp
    · rw [if_neg hstop]
      rw [ih (c + 1) (by omega)]
      have h1 : mh - c = (mh - (c + 1)) + 1 := by omega
      rw [h1, List.take_succ_cons, List.filterMap_cons]
      cases process m <;> simp

/-- The processed prefix, expressed as alignment filtering followed by
`Finding` construction. -/
theorem filterMap_process_binary (opts : SearchOptions) (path : List Char)
    (l : List ByteMatch) :
    l.filterMap (process_binary_match opts path) =
      (l.filter (fun m =>
        !decide (opts.alignment ≠ 0 ∧ m.start % opts.alignment.toNat ≠ 0))).map
        (mkBinaryFinding path) := by
  induction l with
  | nil => rfl
  | cons m rest ih =>
    by_cases hc : opts.alignment ≠ 0 ∧ m.start % opts.alignment.toNat ≠ 0
    · have hpm : process_binary_match opts path m = none := by
        unfold process_binary_match
        rw [if_pos hc]
      have hflt : (!decide (opts.alignment ≠ 0 ∧
          m.start % opts.alignment.toNat ≠ 0)) = false := by
        simp [hc]
      rw [List.filterMap_cons, hpm, List.filter_cons, hflt]
      simp only [Bool.false_eq_true, if_false]
      exact ih
    · have hpm : process_binary_match opts path m =
          some (mkBinaryFinding path m) := by
        unfold process_binary_match
        rw [if_neg hc]
      have hflt : (!decide (opts.alignment ≠ 0 ∧
          m.start % opts.alignment.toNat ≠ 0)) = true := by
        simp [hc]
      rw [List.filterMap_cons, hpm, List.filter_cons, hflt]
      simp only [if_true, List.map_cons]
      rw [ih]

theorem litMatches_map_start (pat buf : List Nat) :
    (litMatches pat buf).map (fun m => m.start) = findLit pat buf := by
  unfold litMatches
  rw [List.map_map]
  have hcomp : ((fun m : ByteMatch => m.start) ∘
      fun i => ({ start := i, bytes := pat } : ByteMatch)) = id := rfl
  rw [hcomp, List.map_id]

theorem litMatches_length (pat buf : List Nat) :
    (litMatches pat buf).length = (findLit pat buf).length := by
  unfold litMatches
  simp

/-! ## Lemmas about the controller state machine -/

theorem runTaskStep_cons (scan : Nat → List Nat) (s : AppState) (t : WorkTask)
    (rest : List WorkTask) (hts : s.tasks = t :: rest) :
    (runTaskStep scan s).tasks = rest ∧
    (runTaskStep scan s).pendingProgress =
      s.pendingProgress ++ [(t.progressChan, 1)] ∧
    (runTaskStep scan s).filecountHandles = s.filecountHandles ∧
    (runTaskStep scan s).currentFiles = s.currentFiles ∧
    (runTaskStep scan s).maxFiles = s.maxFiles ∧
    (runTaskStep scan s).rxHandles = s.rxHandles ∧
    (runTaskStep scan s).currentFilesId = s.currentFilesId := by
  cases hfq : s.fileQueue <;> simp [runTaskStep, hts, hfq]

theorem run_append (scan : Nat → List Nat) :
    ∀ (l1 l2 : List Op) (s : AppState),
      run scan s (l1 ++ l2) = run scan (run scan s l1) l2 := by
  intro l1
  induction l1 with
  | nil => intro l2 s; rfl
  | cons op rest ih =>
    intro l2 s
    rw [List.cons_append, run, run, ih]

/-- Executing the first `k` pending tasks sends exactly one progress
message per task, regardless of whether the candidate pops succeed. -/
theorem runTasks_fill (scan : Nat → List Nat) :
    ∀ (k : Nat) (s : AppState), k ≤ s.tasks.length →
      (run scan s (List.replicate k Op.runTask)).pendingProgress =
        s.pendingProgress ++
          (s.tasks.take k).map (fun t => (t.progressChan, (1 : Int))) ∧
      (run scan s (List.replicate k Op.runTask)).filecountHandles =
        s.filecountHandles ∧
      (run scan s (List.replicate k Op.runTask)).currentFiles =
        s.currentFiles ∧
      (run scan s (List.replicate k Op.runTask)).maxFiles = s.maxFiles ∧
      (run scan s (List.replicate k Op.runTask)).tasks = s.tasks.drop k := by
  intro k
  induction k with
  | zero => intro s _; simp [run]
  | succ k ih =>
    intro s hk
    cases hts : s.tasks with
    | nil => rw [hts] at hk; simp at hk
    | cons t rest =>
      obtain ⟨h1, h2, h3, h4, h5, _, _⟩ := runTaskStep_cons scan s t rest hts
      have hrest : k ≤ (runTaskStep scan s).tasks.length := by
        rw [h1]
        rw [hts] at hk
        simpa using hk
      have hstep : run scan s (List.replicate (k + 1) Op.runTask) =
          run scan (runTaskStep scan s) (List.replicate k Op.runTask) := by
        rfl
      obtain ⟨ih1, ih2, ih3, ih4, ih5⟩ := ih (runTaskStep scan s) hrest
      rw [hstep]
      refine ⟨?_, by rw [ih2, h3], by rw [ih3, h4], by rw [ih4, h5], ?_⟩
      · rw [ih1, h2, h1, List.take_succ_cons, List.map_cons]
        simp
      · rw [ih5, h1, List.drop_succ_cons]

theorem sum_map_snd_ones :
    ∀ (l : List (Nat × Int)), (∀ p ∈ l, p.2 = 1) →
      (l.map Prod.snd).sum = (l.length : Int) := by
  intro l
  induction l with
  | nil => intro _; rfl
  | cons p rest ih =>
    intro h
    rw [List.map_cons, List.sum_cons, h p (List.mem_cons_self p rest),
      ih (fun q hq => h q (List.mem_cons_of_mem p hq))]
    simp only [List.length_cons]
    push_cast
    ring

theorem filter_not_filter (l : List (Nat × Int)) (f : Nat × Int → Bool) :
    (l.filter (fun p => !f p)).filter f = [] := by
  induction l with
  | nil => rfl
  | cons p rest ih =>
    rw [List.filter_cons]
    cases hfp : f p
    · simp only [Bool.not_false, if_true]
      rw [List.filter_cons, hfp]
      simp only [Bool.false_eq_true, if_false]
      exact ih
    · simp only [Bool.not_true, Bool.false_eq_true, if_false]
      exact ih

/-- The progress-accounting invariant of one search: the drained count plus
the observable in-flight progress messages plus the still-pending tasks
balance the candidate total; every pending task reports to a held
progress receiver; progress messages always carry the value one. -/
structure InvC2 (s : AppState) : Prop where
  bal : s.currentFiles + pendingOnHandles s + (s.tasks.length : Int) = s.maxFiles
  chans : ∀ t ∈ s.tasks, s.filecountHandles.contains t.progressChan = true
  ones : ∀ p ∈ s.pendingProgress, p.2 = (1 : Int)
  nonneg : 0 ≤ s.currentFiles

theorem pendingOnHandles_nonneg (s : AppState) (hones : ∀ p ∈ s.pendingProgress, p.2 = (1 : Int)) :
    0 ≤ pendingOnHandles s := by
  unfold pendingOnHandles
  rw [sum_map_snd_ones (msgsOnHandles s)
    (fun p hp => hones p (List.mem_filter.mp hp).1)]
  exact Int.natCast_nonneg _

theorem InvC2_le (s : AppState) (h : InvC2 s) :
    s.currentFiles ≤ s.maxFiles := by
  have hbal := h.bal
  have hpoh := pendingOnHandles_nonneg s h.ones
  have htl : (0 : Int) ≤ (s.tasks.length : Int) := Int.natCast_nonneg _
  omega

theorem InvC2_runTask (scan : Nat → List Nat) (s : AppState) (h : InvC2 s) :
    InvC2 (runTaskStep scan s) := by
  cases hts : s.tasks with
  | nil =>
    have heq : runTaskStep scan s = s := by
      rw [runTaskStep, hts]
    rw [heq]
    exact h
  | cons t rest =>
    obtain ⟨h1, h2, h3, h4, h5, _, _⟩ := runTaskStep_cons scan s t rest hts
    have hchan : s.filecountHandles.contains t.progressChan = true :=
      h.chans t (by rw [hts]; exact List.mem_cons_self t rest)
    have hpoh : pendingOnHandles (runTaskStep scan s) = pendingOnHandles s + 1 := by
      unfold pendingOnHandles msgsOnHandles
      rw [h2, h3, List.filter_append, List.map_append, List.sum_append]
      have hmem : t.progressChan ∈ s.filecountHandles := by
        simpa using hchan
      simp [hmem]
    constructor
    · rw [h4, h5, hpoh, h1]
      have hbal := h.bal
      rw [hts] at hbal
      simp only [List.length_cons] at hbal
      push_cast at hbal ⊢
      omega
    · intro t' ht'
      rw [h1] at ht'
      rw [h3]
      exact h.chans t' (by rw [hts]; exact List.mem_cons_of_mem t ht')
    · intro p hp
      rw [h2] at hp
      rcases List.mem_append.mp hp with hm | hm
      · exact h.ones p hm
      · simp only [List.mem_singleton] at hm
        rw [hm]
    · rw [h4]
      exact h.nonneg

theorem InvC2_drain (s : AppState) (h : InvC2 s) : InvC2 (drainStep s) := by
  have hpoh : pendingOnHandles (drainStep s) = 0 := by
    unfold pendingOnHandles msgsOnHandles drainStep
    simp only
    rw [filter_not_filter]
    rfl
  have hcf : (drainStep s).currentFiles = s.currentFiles + pendingOnHandles s := rfl
  have htasks : (drainStep s).tasks = s.tasks := rfl
  have hfc : (drainStep s).filecountHandles = s.filecountHandles := rfl
  have hmax : (drainStep s).maxFiles = s.maxFiles := rfl
  constructor
  · rw [hcf, htasks, hmax, hpoh]
    have hbal := h.bal
    omega
  · intro t ht
    rw [htasks] at ht
    rw [hfc]
    exact h.chans t ht
  · intro p hp
    have hp' : p ∈ s.pendingProgress := by
      have : (drainStep s).pendingProgress =
          s.pendingProgress.filter (fun q => !s.filecountHandles.contains q.1) := rfl
      rw [this] at hp
      exact (List.mem_filter.mp hp).1
    exact h.ones p hp'
  · rw [hcf]
    have := pendingOnHandles_nonneg s h.ones
    have := h.nonneg
    omega

theorem InvC2_run (scan : Nat → List Nat) :
    ∀ (ops : List Op) (s : AppState),
      (∀ op ∈ ops, op = Op.runTask ∨ op = Op.drain) → InvC2 s →
      InvC2 (run scan s ops) ∧ (run scan s ops).maxFiles = s.maxFiles := by
  intro ops
  induction ops with
  | nil => intro s _ h; exact ⟨h, rfl⟩
  | cons op rest ih =>
    intro s hops h
    have hrest : ∀ o ∈ rest, o = Op.runTask ∨ o = Op.drain :=
      fun o ho => hops o (List.mem_cons_of_mem op ho)
    rcases hops op (List.mem_cons_self op rest) with rfl | rfl
    · have hmax : (runTaskStep scan s).maxFiles = s.maxFiles := by
        cases hts : s.tasks with
        | nil => rw [runTaskStep, hts]
        | cons t r => exact (runTaskStep_cons scan s t r hts).2.2.2.2.1
      have hrun := ih (runTaskStep scan s) hrest (InvC2_runTask scan s h)
      refine ⟨hrun.1, ?_⟩
      show (run scan (runTaskStep scan s) rest).maxFiles = s.maxFiles
      rw [hrun.2, hmax]
    · have hrun := ih (drainStep s) hrest (InvC2_drain s h)
      exact ⟨hrun.1, hrun.2⟩

theorem searchStep_maxFiles (s : AppState) (files : List Nat) :
    (searchStep s files).maxFiles = (files.length : Int) := by
  unfold searchStep
  by_cases h : files.length < 1 <;>
    by_cases hc : s.clearResultsBeforeSearch = true <;> simp [h, hc]

theorem searchStep_currentFilesId (s : AppState) (files : List Nat) :
    (searchStep s files).currentFilesId = s.nextId := by
  unfold searchStep
  by_cases h : files.length < 1 <;>
    by_cases hc : s.clearResultsBeforeSearch = true <;> simp [h, hc]

theorem searchStep_currentFiles (s : AppState) (files : List Nat) :
    (searchStep s files).currentFiles = 0 := by
  unfold searchStep
  by_cases h : files.length < 1 <;>
    by_cases hc : s.clearResultsBeforeSearch = true <;> simp [h, hc]

/-- Closed form of a search launched from the freshly constructed
application state. -/
theorem searchStep_initState (files : List Nat) (hne : files ≠ []) :
    searchStep initState files =
      { nextId := 5, fileQueueId := 0, fileQueue := files, currentFilesId := 2,
        currentFiles := 0, maxFiles := (files.length : Int), rxHandles := [3],
        filecountHandles := [4],
        tasks := List.replicate files.length
          { queueId := 0, resultChan := 3, progressChan := 4 },
        pendingFindings := [], pendingProgress := [], findings := [],
        clearResultsBeforeSearch := true } := by
  have hlen : ¬ (files.length < 1) := by
    cases files with
    | nil => exact absurd rfl hne
    | cons a t => simp
  simp [searchStep, initState, enqueue_files, hlen]

theorem searchStep_ids (s : AppState) (files : List Nat)
    (hne : ¬ (files.length < 1)) :
    (searchStep s files).fileQueueId = s.fileQueueId ∧
    (searchStep s files).currentFilesId = s.nextId ∧
    (searchStep s files).rxHandles =
      (if s.clearResultsBeforeSearch then [] else s.rxHandles) ++
        [s.nextId + 1] ∧
    (searchStep s files).filecountHandles =
      s.filecountHandles ++ [s.nextId + 1 + 1] ∧
    (searchStep s files).tasks = s.tasks ++ List.replicate files.length
      { queueId := s.fileQueueId, resultChan := s.nextId + 1,
        progressChan := s.nextId + 1 + 1 } := by
  unfold searchStep
  by_cases hc : s.clearResultsBeforeSearch = true <;> simp [hc, hne]

theorem InvC2_searchStep_initState (files : List Nat) :
    InvC2 (searchStep initState files) := by
  by_cases hne : files = []
  · subst hne
    constructor
    · simp [searchStep, initState, enqueue_files, pendingOnHandles,
        msgsOnHandles]
    · intro t ht
      simp [searchStep, initState, enqueue_files] at ht
    · intro p hp
      simp [searchStep, initState, enqueue_files] at hp
    · simp [searchStep, initState, enqueue_files]
  · rw [searchStep_initState files hne]
    constructor
    · simp [pendingOnHandles, msgsOnHandles]
    · intro t ht
      rw [List.eq_of_mem_replicate ht]
      rfl
    · intro p hp
      simp at hp
    · simp

/-! ## Claim theorems -/

/-- C1, counterexample: two consecutive searches, the second starting while
a task of the first is still pending (so a worker of the first has not
terminated), nevertheless push their tasks onto the same candidate-file
queue: the queue identifier captured by both searches' tasks is the one
allocated at construction, so the claimed disjointness of the
candidate-file queue fails. -/
theorem file_queue_shared_across_searches_cex :
    (searchStep initState [10]).tasks ≠ [] ∧
    (searchStep (searchStep initState [10]) [11]).fileQueueId =
      (searchStep initState [10]).fileQueueId ∧
    (searchStep (searchStep initState [10]) [11]).tasks.map
      (fun t => t.queueId) = [0, 0] := by
  refine ⟨by decide, by decide, by decide⟩

/-- C1, amended: a new search allocates a completed-files counter and
result/progress channel endpoints that are fresh (disjoint from every
identifier the state already refers to, including any still-running
previous search's), but it reuses the one shared candidate-file queue
allocated at construction: the new tasks capture the same queue
identifier. -/
theorem search_fresh_counter_channels_shared_queue (s : AppState)
    (files : List Nat) (hwf : wfIds s) (hne : files ≠ []) :
    (searchStep s files).fileQueueId = s.fileQueueId ∧
    (searchStep s files).currentFilesId ∉ usedIds s ∧
    ∃ rc pc rpre,
      rc ∉ usedIds s ∧ pc ∉ usedIds s ∧ rc ≠ pc ∧
      (searchStep s files).currentFilesId ≠ rc ∧
      (searchStep s files).currentFilesId ≠ pc ∧
      (searchStep s files).rxHandles = rpre ++ [rc] ∧
      (searchStep s files).filecountHandles = s.filecountHandles ++ [pc] ∧
      ∀ t ∈ (searchStep s files).tasks.drop s.tasks.length,
        t.resultChan = rc ∧ t.progressChan = pc ∧ t.queueId = s.fileQueueId := by
  have hlen : ¬ (files.length < 1) := by
    cases files with
    | nil => exact absurd rfl hne
    | cons a t => simp
  obtain ⟨hq, hcid, hrx, hfc, htasks⟩ := searchStep_ids s files hlen
  have hfresh : ∀ n, s.nextId ≤ n → n ∉ usedIds s := by
    intro n hn hmem
    have := hwf n hmem
    omega
  refine ⟨hq, by rw [hcid]; exact hfresh _ le_rfl,
    s.nextId + 1, s.nextId + 1 + 1,
    (if s.clearResultsBeforeSearch then [] else s.rxHandles),
    hfresh _ (by omega), hfresh _ (by omega), by omega,
    by rw [hcid]; omega, by rw [hcid]; omega, hrx, hfc, ?_⟩
  intro t ht
  rw [htasks, List.drop_left] at ht
  rw [List.eq_of_mem_replicate ht]
  exact ⟨rfl, rfl, rfl⟩

/-- C1, witness for the amended theorem: instantiated at the state reached
after a first search with a still-pending task. -/
theorem search_fresh_counter_channels_shared_queue_witness :
    wfIds (searchStep initState [9]) ∧
    (searchStep initState [9]).tasks ≠ [] ∧
    (searchStep (searchStep initState [9]) [7]).fileQueueId =
      (searchStep initState [9]).fileQueueId :=
  ⟨by decide, by decide,
    (search_fresh_counter_channels_shared_queue (searchStep initState [9]) [7]
      (by decide) (by decide)).1⟩

/-- C2, counterexample: a search over two files is cancelled before its
tasks run; the tasks still emit their progress signals to the retained
progress receiver.  A following search over one file then drains those
stale signals into its fresh counter together with its own, reading a
completed count of 3 against a total of 1 — the completed count exceeds
`max_files`. -/
theorem completed_count_exceeds_total_cex :
    (run (fun _ => []) initState
      [Op.searchOp [10, 11], Op.cancel, Op.runTask, Op.runTask,
       Op.searchOp [12], Op.runTask, Op.drain]).maxFiles = 1 ∧
    (run (fun _ => []) initState
      [Op.searchOp [10, 11], Op.cancel, Op.runTask, Op.runTask,
       Op.searchOp [12], Op.runTask, Op.drain]).currentFiles = 3 := by
  refine ⟨by decide, by decide⟩

/-- C2, amended: the counter behind `current_files_mtx` is replaced by a
freshly allocated, zeroed mutex at the start of every search, and for a
search launched from the idle initial state (so that no progress receiver
or undrained progress message of an earlier search survives), the
completed count never exceeds `max_files` under any interleaving of
worker task executions and UI drains.  The list of progress receivers is
however never cleared, so a cancelled earlier search can push the count
beyond `max_files` (see the counterexample). -/
theorem completed_count_bounded_isolated_search (scan : Nat → List Nat)
    (files : List Nat) (ops : List Op)
    (hops : ∀ op ∈ ops, op = Op.runTask ∨ op = Op.drain) :
    (run scan (searchStep initState files) ops).currentFiles ≤
      (run scan (searchStep initState files) ops).maxFiles ∧
    (run scan (searchStep initState files) ops).maxFiles =
      (files.length : Int) ∧
    (searchStep initState files).currentFilesId ≠ initState.currentFilesId ∧
    (searchStep initState files).currentFiles = 0 := by
  obtain ⟨hinv, hmax⟩ :=
    InvC2_run scan ops (searchStep initState files) hops
      (InvC2_searchStep_initState files)
  refine ⟨InvC2_le _ hinv, ?_, ?_, searchStep_currentFiles initState files⟩
  · rw [hmax, searchStep_maxFiles]
  · rw [searchStep_currentFilesId]
    decide

/-- C2, witness for the amended theorem. -/
theorem completed_count_bounded_isolated_search_witness :
    (run (fun _ => []) (searchStep initState [5, 6])
      [Op.runTask, Op.drain, Op.runTask, Op.drain]).currentFiles ≤
    (run (fun _ => []) (searchStep initState [5, 6])
      [Op.runTask, Op.drain, Op.runTask, Op.drain]).maxFiles :=
  (completed_count_bounded_isolated_search (fun _ => []) [5, 6]
    [Op.runTask, Op.drain, Op.runTask, Op.drain] (by decide)).1

/-- C3: a search over `M` candidate files submits exactly `M` tasks; every
task execution sends exactly one progress message, whether or not its pop
of the candidate queue succeeds; and once all `M` tasks have executed and
the channels are drained, the completed count reads exactly `M`. -/
theorem progress_signals_match_candidates (scan : Nat → List Nat)
    (files : List Nat) :
    (searchStep initState files).tasks.length = files.length ∧
    (∀ s : AppState, s.tasks ≠ [] →
      (runTaskStep scan s).pendingProgress.length =
        s.pendingProgress.length + 1) ∧
    (run scan (searchStep initState files)
        (List.replicate files.length Op.runTask ++ [Op.drain])).currentFiles =
      (files.length : Int) := by
  refine ⟨?_, ?_, ?_⟩
  · by_cases hne : files = []
    · subst hne
      decide
    · rw [searchStep_initState files hne]
      simp
  · intro s hts
    cases hts' : s.tasks with
    | nil => exact absurd hts' hts
    | cons t rest =>
      rw [(runTaskStep_cons scan s t rest hts').2.1]
      simp
  · by_cases hne : files = []
    · subst hne
      show (drainStep (searchStep initState [])).currentFiles =
        ((List.length ([] : List Nat) : Nat) : Int)
      decide
    · obtain ⟨hpp, hfc, hcf, _, _⟩ :=
        runTasks_fill scan files.length (searchStep initState files)
          (by rw [searchStep_initState files hne]; simp)
      have hs1p : (searchStep initState files).pendingProgress = [] := by
        rw [searchStep_initState files hne]
      have hs1f : (searchStep initState files).filecountHandles = [4] := by
        rw [searchStep_initState files hne]
      have hs1t : (searchStep initState files).tasks =
          List.replicate files.length
            { queueId := 0, resultChan := 3, progressChan := 4 } := by
        rw [searchStep_initState files hne]
      rw [hs1p, hs1t] at hpp
      rw [hs1f] at hfc
      rw [searchStep_currentFiles] at hcf
      simp only [List.take_replicate, Nat.min_self, List.map_replicate,
        List.nil_append] at hpp
      rw [run_append]
      show (drainStep (run scan (searchStep initState files)
        (List.replicate files.length Op.runTask))).currentFiles = _
      have hdr : (drainStep (run scan (searchStep initState files)
          (List.replicate files.length Op.runTask))).currentFiles =
          (run scan (searchStep initState files)
            (List.replicate files.length Op.runTask)).currentFiles +
          pendingOnHandles (run scan (searchStep initState files)
            (List.replicate files.length Op.runTask)) := rfl
      rw [hdr, hcf]
      have hmsgs : msgsOnHandles (run scan (searchStep initState files)
          (List.replicate files.length Op.runTask)) =
          List.replicate files.length ((4 : Nat), (1 : Int)) := by
        unfold msgsOnHandles
        rw [hpp, hfc]
        apply List.filter_eq_self.mpr
        intro p hp
        rw [List.eq_of_mem_replicate hp]
        rfl
      have hpoh : pendingOnHandles (run scan (searchStep initState files)
          (List.replicate files.length Op.runTask)) =
          (files.length : Int) := by
        unfold pendingOnHandles
        rw [hmsgs, sum_map_snd_ones _
          (fun p hp => by rw [List.eq_of_mem_replicate hp])]
        simp
      rw [hpoh]
      simp

/-- C3, witness. -/
theorem progress_signals_match_candidates_witness :
    (run (fun _ => []) (searchStep initState [20, 21])
        (List.replicate 2 Op.runTask ++ [Op.drain])).currentFiles = 2 :=
  (progress_signals_match_candidates (fun _ => []) [20, 21]).2.2

/-- C4, counterexample: the pairs of `de <tab> ad` are separated by a
whitespace character that is not U+0020; the source strips only spaces,
so the tab survives stripping, falls outside the allowed alphabet, and
compilation fails with the invalid-character error instead of
succeeding. -/
theorem tab_separated_hex_rejected_cex :
    convert_simplified_hex_regex ['d', 'e', '\t', 'a', 'd'] =
      .error RegexErr.InvalidChar := rfl

/-- C4, amended: for every input string composed solely of two-digit hex
pairs separated or padded by space (U+0020) characters, compilation
succeeds with every pair rewritten to an escaped byte literal, and
matching the denoted byte literal against any buffer containing those
bytes at exactly one offset yields exactly one match at that offset whose
length equals the number of pairs. -/
theorem space_separated_hex_single_match (pairs : List (Char × Char))
    (input : List Char) (buf : List Nat) (i0 : Nat)
    (hne : pairs ≠ [])
    (hhex : ∀ p ∈ pairs, isHexDigitChar p.1 = true ∧ isHexDigitChar p.2 = true)
    (hinput : removeSpaces input = pairsFlat pairs)
    (hocc : occList (hexEscapedBytes pairs) buf = [i0]) :
    convert_simplified_hex_regex input = .ok (xEscapedForm pairs) ∧
    findLit (hexEscapedBytes pairs) buf = [i0] ∧
    (hexEscapedBytes pairs).length = pairs.length :=
  ⟨convert_ok_of_pairs pairs input hne hhex hinput,
   findLit_of_occList_singleton _ _ (hexEscapedBytes_ne_nil pairs hne) i0 hocc,
   hexEscapedBytes_length pairs⟩

/-- C4, witness: the input `de ad`, matched against a buffer containing
`0xde 0xad` exactly once, at offset 1. -/
theorem space_separated_hex_single_match_witness :
    convert_simplified_hex_regex ['d', 'e', ' ', 'a', 'd'] =
      .ok (xEscapedForm [('d', 'e'), ('a', 'd')]) ∧
    findLit (hexEscapedBytes [('d', 'e'), ('a', 'd')]) [0, 222, 173] = [1] ∧
    (hexEscapedBytes [('d', 'e'), ('a', 'd')]).length = 2 :=
  space_separated_hex_single_match [('d', 'e'), ('a', 'd')]
    ['d', 'e', ' ', 'a', 'd'] [0, 222, 173] 1 (by decide) (by decide) rfl rfl

/-- C5: any input whose space-stripped form contains a character outside
the allowed hex-mode alphabet is rejected with the invalid-character
error; since the translation errors out before any regex text is built,
neither a compile error nor success can occur. -/
theorem invalid_char_yields_invalid_char (s : List Char)
    (h : (removeSpaces s).any isInvalidHexChar = true) :
    convert_simplified_hex_regex s = .error RegexErr.InvalidChar := by
  unfold convert_simplified_hex_regex
  simp only [h, if_true]

/-- C5, witness. -/
theorem invalid_char_yields_invalid_char_witness :
    convert_simplified_hex_regex ['g', 'g'] = .error RegexErr.InvalidChar :=
  invalid_char_yields_invalid_char ['g', 'g'] rfl

/-- C6: the empty pattern is rejected with the empty-pattern error in both
Hex and Text mode; no regex source text is ever produced for it. -/
theorem empty_pattern_rejected_both_modes :
    hex_mode_regex_request [] = .error RegexErr.EmptyRegex ∧
    text_mode_regex_request [] = .error RegexErr.EmptyRegex :=
  ⟨rfl, rfl⟩

/-- C7: with alignment disabled, scanning a file whose contents contain
more matches than `max_hits` emits exactly `max_hits` findings — the
first `max_hits` matches, so the loop stops as soon as the hit counter
reaches the cap — and their offsets are strictly increasing. -/
theorem per_file_cap_exact (opts : SearchOptions) (path : List Char)
    (pat buf : List Nat)
    (hre : opts.regex_result = .ok (.Hex pat))
    (halign : opts.alignment = 0)
    (hpos : 1 ≤ opts.max_hits)
    (hN : opts.max_hits < (findLit pat buf).length) :
    (search_file opts path (some buf)).length = opts.max_hits ∧
    (search_file opts path (some buf)).map (fun f => f.offset) =
      (findLit pat buf).take opts.max_hits ∧
    List.Pairwise (· < ·)
      ((search_file opts path (some buf)).map (fun f => f.offset)) := by
  have hsf : search_file opts path (some buf) =
      ((litMatches pat buf).take opts.max_hits).filterMap
        (process_binary_match opts path) := by
    unfold search_file
    rw [hre]
    show find_iter_loop (process_binary_match opts path) opts.max_hits
      (litMatches pat buf) 0 = _
    rw [find_iter_loop_eq (process_binary_match opts path) opts.max_hits
      (litMatches pat buf) 0 (by omega)]
    rw [Nat.sub_zero]
  have hfm : ((litMatches pat buf).take opts.max_hits).filterMap
      (process_binary_match opts path) =
      ((litMatches pat buf).take opts.max_hits).map (mkBinaryFinding path) := by
    rw [filterMap_process_binary]
    congr 1
    apply List.filter_eq_self.mpr
    intro m _
    simp [halign]
  have hcomp : ((fun f : Finding => f.offset) ∘ mkBinaryFinding path) =
      (fun m : ByteMatch => m.start) := rfl
  refine ⟨?_, ?_, ?_⟩
  · rw [hsf, hfm, List.length_map, List.length_take, litMatches_length]
    omega
  · rw [hsf, hfm, List.map_map, hcomp, List.map_take, litMatches_map_start]
  · rw [hsf, hfm, List.map_map, hcomp, List.map_take, litMatches_map_start]
    exact List.Pairwise.sublist (List.take_sublist _ _) (findLit_sorted pat buf)

/-- C7, witness: three matches, cap two. -/
theorem per_file_cap_exact_witness :
    (search_file
      { alignment := 0,
        regex_result := Except.ok (RegexEnum.Hex [173]),
        max_hits := 2 }
      ['f'] (some [173, 173, 173])).length = 2 :=
  (per_file_cap_exact _ ['f'] [173] [173, 173, 173] rfl rfl (by decide)
    (by simp [findLit])).1

/-- C8: in Hex mode with alignment `k > 0`, every emitted finding has an
offset that is an exact multiple of `k`, and the emitted findings are
exactly the aligned matches among the first `max_hits` matches — the
misaligned ones are suppressed yet still counted toward the per-file
cap. -/
theorem alignment_filter_counts_suppressed (opts : SearchOptions)
    (path : List Char) (pat buf : List Nat) (k : Int)
    (hre : opts.regex_result = .ok (.Hex pat))
    (halign : opts.alignment = k) (hk : 0 < k)
    (hpos : 1 ≤ opts.max_hits) :
    (∀ f ∈ search_file opts path (some buf), f.offset % k.toNat = 0) ∧
    search_file opts path (some buf) =
      (((litMatches pat buf).take opts.max_hits).filter
        (fun m => decide (m.start % k.toNat = 0))).map (mkBinaryFinding path) := by
  have hsf : search_file opts path (some buf) =
      ((litMatches pat buf).take opts.max_hits).filterMap
        (process_binary_match opts path) := by
    unfold search_file
    rw [hre]
    show find_iter_loop (process_binary_match opts path) opts.max_hits
      (litMatches pat buf) 0 = _
    rw [find_iter_loop_eq (process_binary_match opts path) opts.max_hits
      (litMatches pat buf) 0 (by omega)]
    rw [Nat.sub_zero]
  have hkne : k ≠ 0 := by omega
  have hmain : search_file opts path (some buf) =
      (((litMatches pat buf).take opts.max_hits).filter
        (fun m => decide (m.start % k.toNat = 0))).map (mkBinaryFinding path) := by
    rw [hsf, filterMap_process_binary]
    congr 1
    apply List.filter_congr
    intro m _
    simp [halign, hkne]
  refine ⟨?_, hmain⟩
  intro f hf
  rw [hmain] at hf
  rcases List.mem_map.mp hf with ⟨m, hm, rfl⟩
  have := (List.mem_filter.mp hm).2
  simpa [mkBinaryFinding] using this

/-- C8, witness: pattern `ad` in `ad ad ad` with alignment 2 and cap 2:
the match at offset 1 is suppressed but consumes the cap, so only the
aligned match among the first two is emitted. -/
theorem alignment_filter_counts_suppressed_witness :
    search_file
      { alignment := 2,
        regex_result := Except.ok (RegexEnum.Hex [173]),
        max_hits := 2 }
      ['f'] (some [173, 173, 173]) =
    (((litMatches [173] [173, 173, 173]).take 2).filter
      (fun m => decide (m.start % (2 : Int).toNat = 0))).map
      (mkBinaryFinding ['f']) :=
  (alignment_filter_counts_suppressed _ ['f'] [173] [173, 173, 173] 2 rfl rfl
    (by decide) (by decide)).2

/-- C9, counterexample: after a search over one file is cancelled, the
progress receiver is still held (`filecount_handles` is not cleared), and
the progress message sent by the leftover task is observed by the next
drain: the counter reads 1, so in-flight progress emissions are not
discarded. -/
theorem cancel_keeps_progress_receivers_cex :
    (cancelStep (searchStep initState [10])).filecountHandles = [4] ∧
    (drainStep (runTaskStep (fun _ => [])
      (cancelStep (searchStep initState [10])))).currentFiles = 1 := by
  refine ⟨by decide, by decide⟩

/-- C9, amended: cancellation empties the pending-work candidate queue (so
every not-yet-started task finds nothing to pop), resets `max_files`, and
drops the result receivers — a subsequent drain observes no finding at
all — but the progress receivers are retained, so in-flight progress
emissions are still observed rather than discarded. -/
theorem cancel_drains_queue_drops_result_rx (s : AppState) :
    (cancelStep s).fileQueue = [] ∧
    (cancelStep s).rxHandles = [] ∧
    (cancelStep s).maxFiles = 0 ∧
    (cancelStep s).filecountHandles = s.filecountHandles ∧
    (drainStep (cancelStep s)).findings = (cancelStep s).findings := by
  refine ⟨rfl, rfl, rfl, rfl, ?_⟩
  show (cancelStep s).findings ++
      ((cancelStep s).pendingFindings.filter
        (fun p => (cancelStep s).rxHandles.contains p.1)).map Prod.snd =
    (cancelStep s).findings
  have hrx : (cancelStep s).rxHandles = [] := rfl
  rw [hrx]
  simp

/-- C10: the one-space input is non-empty, so the emptiness check on the
original string passes; stripping leaves nothing, no invalid character is
found, and compilation succeeds with an empty translated expression.  The
empty pattern matches the empty byte string at every offset of any
buffer. -/
theorem space_only_input_compiles_empty :
    convert_simplified_hex_regex [' '] = .ok [] ∧
    ∀ buf : List Nat, findLit [] buf = List.range (buf.length + 1) :=
  ⟨rfl, findLit_nil_pat⟩

end Quer
